import Mathlib

/-
Verification development for the editable-text core of RedPanda-CPP
(QSynedit): the painter token loop, the fixed-point incremental
re-highlighting pass, the line/newline document model, glyph/column
conversions, the line-width cache, and the bounded undo/redo change log.

Pure functions from the C++ sources are embedded as Lean definitions;
stateful classes become explicit state passing over structures.  Where a
claim depends on implementation code that is not part of the provided
sources (only its header declarations are), the definition is modelled
from the specification and is marked as such in its doc comment.
-/

namespace RedPandaSpec

/-! ## Painter token loop (QSynEditPainter::paintLines, painter.cpp) -/

/-- Abstraction of the syntaxer as seen by the painter token loop: the
stream of tokens it will emit for the current line.  `eol` is true when
the stream is exhausted, `getToken` peeks the current token, `next`
advances.  Tokens are the token texts, as char lists. -/
structure TokenScanner where
  tokens : List (List Char)
deriving DecidableEq

def TokenScanner.eol (s : TokenScanner) : Bool := s.tokens.isEmpty

def TokenScanner.getToken (s : TokenScanner) : List Char := s.tokens.headD []

def TokenScanner.next (s : TokenScanner) : TokenScanner := ⟨s.tokens.tail⟩

/-- Embedding of the painter token loop of `QSynEditPainter::paintLines`
(painter.cpp lines 1000-1078):

  while (!eol()) \x7b
    sToken = getToken();
    if (sToken.isEmpty()) \x7b continue; \x7d   // no next(), throw is commented out
    ...
    next();
  \x7d

`fuel` bounds the number of iterations; a result of `none` means the
loop did not finish within `fuel` iterations.  The accumulator collects
the tokens handed to `addHighlightToken`, newest first. -/
def paintTokenLoop : Nat → TokenScanner → List (List Char) → Option (List (List Char))
  | 0, _, _ => none
  | fuel+1, s, acc =>
    if s.eol then some acc.reverse
    else
      let tok := s.getToken
      if tok.isEmpty then
        paintTokenLoop fuel s acc
      else
        paintTokenLoop fuel s.next (tok :: acc)

/-! ## Fixed-point incremental re-highlighting -/

/-- Embedding of the syntaxer priming from painter.cpp lines 986-991:
for the first line the syntaxer is reset to its defined start state,
otherwise it is primed with the cached end-state of the previous line. -/
def primeState {σ : Type} (resetSt : σ) (cached : List σ) (l : Nat) : σ :=
  if l = 0 then resetSt else cached.getD (l-1) resetSt

/-- Modelled from the spec: the inner loop of the fixed-point
re-highlight pass (the rescan loop itself lives in SynEdit code whose
implementation is not among the provided sources; only the per-line
priming and the tokenizer interface are).  Walks the remaining
(line text, cached end-state) pairs: computes the new end-state from the
previous line's state; if it equals the cached one the pass stops
(remaining cached states stay valid), otherwise the new state is stored
and the pass continues with the next line.  Returns the updated states
of the walked suffix together with the indices of the visited lines. -/
def rehighlightLoop {σ : Type} [DecidableEq σ] (scan : σ → List Char → σ) :
    σ → List (List Char × σ) → Nat → List σ × List Nat
  | _, [], _ => ([], [])
  | prev, (l, c) :: rest, idx =>
      let s := scan prev l
      if s = c then (c :: rest.map Prod.snd, [idx])
      else
        let r := rehighlightLoop scan s rest (idx+1)
        (s :: r.1, idx :: r.2)

/-- Modelled from the spec: re-highlight the document starting at line
index `l` (0-based), priming the tokenizer per painter.cpp's rule.
Returns the updated per-line cached end-states and the list of visited
line indices. -/
def rehighlightFrom {σ : Type} [DecidableEq σ] (scan : σ → List Char → σ)
    (resetSt : σ) (lines : List (List Char)) (cached : List σ) (l : Nat) :
    List σ × List Nat :=
  let r := rehighlightLoop scan (primeState resetSt cached l)
      ((lines.drop l).zip (cached.drop l)) l
  (cached.take l ++ r.1, r.2)

/-- Modelled from the spec: the lexical modes of a minimal C-like
line scanner that tracks block comments, used to instantiate the
fixed-point pass on the spec's block-comment example. -/
inductive CMode where
  | plain : CMode
  | inComment : CMode
deriving DecidableEq

/-- Modelled from the spec: scan one line's characters, threading the
block-comment mode: in plain mode `/*` enters a block comment and `//`
discards the rest of the line; inside a block comment `*/` returns to
plain mode. -/
def scanChars : CMode → List Char → CMode
  | CMode.plain, '/' :: '*' :: rest => scanChars CMode.inComment rest
  | CMode.plain, '/' :: '/' :: _ => CMode.plain
  | CMode.plain, _ :: rest => scanChars CMode.plain rest
  | CMode.plain, [] => CMode.plain
  | CMode.inComment, '*' :: '/' :: rest => scanChars CMode.plain rest
  | CMode.inComment, _ :: rest => scanChars CMode.inComment rest
  | CMode.inComment, [] => CMode.inComment

/-- One-line end-state function for the mini scanner:
`(previousState, lineText) -> newState`. -/
def miniScan (m : CMode) (line : List Char) : CMode := scanChars m line

/-! ## Document text model: line splitting, newline detection, save -/

/-- The recognized line-ending styles (document.h stores one
`NewlineType` per document). -/
inductive NewlineType where
  | crlf : NewlineType
  | cr : NewlineType
  | lf : NewlineType
deriving DecidableEq

/-- Characters of one line break of the given style. -/
def newlineChars : NewlineType → List Char
  | NewlineType.crlf => ['\r', '\n']
  | NewlineType.cr => ['\r']
  | NewlineType.lf => ['\n']

/-- Modelled from the spec: bulk load records "which style was
detected"; the first line break encountered in the text decides the
document's newline type (LF when the text has no line break). -/
def detectNewlineType : List Char → NewlineType
  | [] => NewlineType.lf
  | '\r' :: '\n' :: _ => NewlineType.crlf
  | '\r' :: _ => NewlineType.cr
  | '\n' :: _ => NewlineType.lf
  | _ :: rest => detectNewlineType rest

/-- Modelled from the spec: split a text into lines on the recognized
line-ending styles CR, LF and CRLF (CRLF consumed as one break).  The
result is never empty; a trailing break yields a trailing empty
segment. -/
def splitLines : List Char → List (List Char)
  | [] => [[]]
  | '\r' :: '\n' :: rest => [] :: splitLines rest
  | '\r' :: rest => [] :: splitLines rest
  | '\n' :: rest => [] :: splitLines rest
  | c :: rest =>
    match splitLines rest with
    | [] => [[c]]
    | l :: ls => (c :: l) :: ls

def isBreakChar (c : Char) : Bool := c = '\r' || c = '\n'

/-- Whether the text ends with a line-break character. -/
def endsWithBreak (text : List Char) : Bool :=
  match text.getLast? with
  | some c => isBreakChar c
  | none => false

/-- The document as the persistence layer sees it: the ordered lines
(no embedded breaks), the detected newline type, and the
append-trailing-newline flag (document.h: `mNewlineType`,
`mAppendNewLineAtEOF`). -/
structure TextDoc where
  lines : List (List Char)
  newlineType : NewlineType
  appendNewLineAtEOF : Bool
deriving DecidableEq

/-- Modelled from the spec: bulk load of a text: detect the newline
style, split into lines, set the append-trailing-newline flag from
whether the source ended with a line break (dropping the trailing
empty segment the split then produces). -/
def loadText (text : List Char) : TextDoc :=
  let ls := splitLines text
  { lines := if endsWithBreak text then ls.dropLast else ls
    newlineType := detectNewlineType text
    appendNewLineAtEOF := endsWithBreak text }

/-- Lines concatenated by the document's line break (document.h
`text()`: "Lines are concatenated by line breaks (by lineBreak())"). -/
def joinLines (nl : NewlineType) : List (List Char) → List Char
  | [] => []
  | [l] => l
  | l :: ls => l ++ newlineChars nl ++ joinLines nl ls

/-- Modelled from the spec: save re-encodes the lines joined with the
document's single newline type, appending one trailing line break when
the per-document flag is set. -/
def saveText (d : TextDoc) : List Char :=
  joinLines d.newlineType d.lines ++
    (if d.appendNewLineAtEOF then newlineChars d.newlineType else [])

/-- All line breaks occurring in the text are of the given single
style. -/
def uniformBreaks : NewlineType → List Char → Bool
  | _, [] => true
  | NewlineType.lf, '\r' :: _ => false
  | NewlineType.lf, _ :: rest => uniformBreaks NewlineType.lf rest
  | NewlineType.cr, '\n' :: _ => false
  | NewlineType.cr, _ :: rest => uniformBreaks NewlineType.cr rest
  | NewlineType.crlf, '\r' :: '\n' :: rest => uniformBreaks NewlineType.crlf rest
  | NewlineType.crlf, '\r' :: _ => false
  | NewlineType.crlf, '\n' :: _ => false
  | NewlineType.crlf, _ :: rest => uniformBreaks NewlineType.crlf rest

/-! ## Typed load failures -/

/-- The distinct load failure modes (document.h declares the typed
`FileError`/`BinaryFileError` hierarchy; the spec lists the modes). -/
inductive FileErrorKind where
  | unreadable : FileErrorKind
  | bomMismatch : FileErrorKind
  | malformedSequence : FileErrorKind
deriving DecidableEq

/-- The character encodings of the mock decoder. -/
inductive Encoding where
  | ascii : Encoding
  | utf16 : Encoding
deriving DecidableEq

/-- Byte-order marker of little-endian UTF-16. -/
def utf16leBOM : List Nat := [255, 254]

/-- Modelled from the spec: decode little-endian 16-bit code units; an
odd byte count or a code unit in the surrogate range is a malformed
multi-byte sequence. -/
def decodeUtf16Pairs : List Nat → Except FileErrorKind (List Char)
  | [] => Except.ok []
  | [_] => Except.error FileErrorKind.malformedSequence
  | lo :: hi :: rest =>
    match decodeUtf16Pairs rest with
    | Except.error e => Except.error e
    | Except.ok cs =>
      let n := lo + 256 * hi
      if n < 55296 then Except.ok (Char.ofNat n :: cs)
      else Except.error FileErrorKind.malformedSequence

/-- Modelled from the spec: decode a byte sequence under the given
encoding; a missing byte-order marker for UTF-16 is a BOM/encoding
mismatch, an undecodable byte is a malformed sequence — each failure
mode is distinct, never a silent substitution. -/
def decodeBytes : Encoding → List Nat → Except FileErrorKind (List Char)
  | Encoding.ascii, [] => Except.ok []
  | Encoding.ascii, b :: rest =>
    if b < 128 then
      match decodeBytes Encoding.ascii rest with
      | Except.error e => Except.error e
      | Except.ok cs => Except.ok (Char.ofNat b :: cs)
    else Except.error FileErrorKind.malformedSequence
  | Encoding.utf16, bytes =>
    if bytes.take 2 = utf16leBOM then decodeUtf16Pairs (bytes.drop 2)
    else Except.error FileErrorKind.bomMismatch

/-- Modelled from the spec: `Document::loadFromFile` (implementation
not among the provided sources).  An unreadable file or a decode
failure surfaces as a typed file error and the in-memory document is
returned untouched; only a fully successful decode replaces the
document's contents. -/
def loadFromFile (doc : TextDoc) (readable : Bool) (enc : Encoding)
    (bytes : List Nat) : TextDoc × Option FileErrorKind :=
  if readable then
    match decodeBytes enc bytes with
    | Except.error e => (doc, some e)
    | Except.ok text => (loadText text, none)
  else (doc, some FileErrorKind.unreadable)

/-! ## Column widths and the per-line width cache -/

/-- Modelled from the spec: display width of one glyph starting at
column `col`: a horizontal tab advances to the next multiple of the tab
width, every other glyph uses the (here unit) advance width. -/
def glyphWidth (tabW col : Nat) (c : Char) : Nat :=
  if c = '\t' then tabW - col % tabW else 1

/-- Accumulate the end column of a string laid out starting at column
`col`. -/
def stringColumnsAux (tabW : Nat) : List Char → Nat → Nat
  | [], col => col
  | c :: rest, col => stringColumnsAux tabW rest (col + glyphWidth tabW col c)

/-- Embedding of `Document::stringColumns(str, colsBefore)`
(document.h: width of the string, not including `colsBefore`). -/
def stringColumns (tabW : Nat) (str : List Char) (colsBefore : Nat) : Nat :=
  stringColumnsAux tabW str colsBefore - colsBefore

/-- One document line with its cached total width in columns
(document.h `DocumentLine`: `mColumns` is `-1` while invalidated,
modelled as `none`). -/
structure ColLine where
  text : List Char
  cachedColumns : Option Nat
deriving DecidableEq

/-- The document restricted to what the width-cache queries use: the
lines and the tab width. -/
structure ColDoc where
  lines : List ColLine
  tabWidth : Nat
deriving DecidableEq

/-- Modelled from the spec: `Document::lineColumns(line)` — returns the
cached width when valid, otherwise computes the width of the stored
line text and stores it into the cache
(`Document::calculateLineColumns`). -/
def ColDoc.lineColumns (doc : ColDoc) (i : Nat) : Nat × ColDoc :=
  match doc.lines.get? i with
  | none => (0, doc)
  | some ln =>
    match ln.cachedColumns with
    | some w => (w, doc)
    | none =>
      let w := stringColumns doc.tabWidth ln.text 0
      (w, { doc with lines := doc.lines.set i { ln with cachedColumns := some w } })

/-- Modelled from the spec: `Document::lineColumns(line, newText)` —
returns the pre-calculated width when `newText` equals the stored line
text, otherwise the freshly computed width of `newText`; it never
stores into any line's cache. -/
def ColDoc.lineColumnsText (doc : ColDoc) (i : Nat) (newText : List Char) :
    Nat × ColDoc :=
  match doc.lines.get? i with
  | none => (stringColumns doc.tabWidth newText 0, doc)
  | some ln =>
    if newText = ln.text then
      (ln.cachedColumns.getD (stringColumns doc.tabWidth ln.text 0), doc)
    else
      (stringColumns doc.tabWidth newText 0, doc)

/-! ## Char / glyph / column conversions -/

/-- Clamp an integer argument into `[lo, hi]`. -/
def clampToRange (lo hi x : Int) : Int := max lo (min hi x)

/-- Modelled from the spec: `Document::charToGlyphIndex` — the char
position is clamped to `[0, line length]`; the line end maps to the
glyph count, an interior position to the index of the glyph containing
it, found by searching the cached glyph start positions. -/
def charToGlyphIndex (glyphPositions : List Nat) (len : Nat) (charPos : Int) : Nat :=
  let c := (clampToRange 0 (Int.ofNat len) charPos).toNat
  if len ≤ c then glyphPositions.length
  else glyphPositions.countP (fun p => decide (p ≤ c)) - 1

/-- Modelled from the spec: `Document::columnToGlyphIndex` — same
search over the cached glyph start columns, clamped to
`[0, total width]`. -/
def columnToGlyphIndex (glyphColumns : List Nat) (total : Nat) (column : Int) : Nat :=
  let c := (clampToRange 0 (Int.ofNat total) column).toNat
  if total ≤ c then glyphColumns.length
  else glyphColumns.countP (fun p => decide (p ≤ c)) - 1

/-- Modelled from the spec: `Document::charToColumn` — the start column
of the glyph containing the (clamped) char position; the line end maps
to the total width. -/
def charToColumn (glyphPositions glyphColumns : List Nat) (len total : Nat)
    (charPos : Int) : Nat :=
  glyphColumns.getD (charToGlyphIndex glyphPositions len charPos) total

/-- Modelled from the spec: `Document::columnToChar` — the start char
of the glyph containing the (clamped) column; the right edge maps to the
line length. -/
def columnToChar (glyphPositions glyphColumns : List Nat) (len total : Nat)
    (column : Int) : Nat :=
  glyphPositions.getD (columnToGlyphIndex glyphColumns total column) len

/-! ## Change log: UndoList / RedoList -/

/-- Embedding of `enum class ChangeReason` (document.h). -/
inductive ChangeReason where
  | insert : ChangeReason
  | delete : ChangeReason
  | caret : ChangeReason
  | selection : ChangeReason
  | groupBreak : ChangeReason
  | leftTop : ChangeReason
  | lineBreak : ChangeReason
  | moveSelectionUp : ChangeReason
  | moveSelectionDown : ChangeReason
  | replaceLine : ChangeReason
  | nothing : ChangeReason
deriving DecidableEq

/-- The selection modes in effect for a change (painter.cpp uses
`SelectionMode::Normal/Line/Column`). -/
inductive SelectionMode where
  | normal : SelectionMode
  | line : SelectionMode
  | column : SelectionMode
deriving DecidableEq

/-- A buffer coordinate: character and line position of an edit
boundary. -/
structure BufferCoord where
  ch : Int
  line : Int
deriving DecidableEq

/-- Embedding of `UndoItem` (document.h): one reversible edit with its
reason, selection mode, start/end coordinates, affected text and
sequence number. -/
structure UndoItem where
  changeReason : ChangeReason
  changeSelMode : SelectionMode
  changeStartPos : BufferCoord
  changeEndPos : BufferCoord
  changeText : List (List Char)
  changeNumber : Nat
deriving DecidableEq

/-- Modelled from the spec: the estimated memory footprint of one
entry — the affected text's characters plus a fixed per-item
overhead. -/
def UndoItem.memoryUsage (item : UndoItem) : Nat :=
  16 + (item.changeText.map List.length).sum

/-- Embedding of the `UndoList` state (document.h fields `mItems`,
`mMaxUndoActions`, `mMaxMemoryUsage`, `mMemoryUsage`,
`mNextChangeNumber`, `mFullUndoImposible`).  The oldest entry is at the
head of `items`. -/
structure UndoList where
  items : List UndoItem
  maxUndoActions : Nat
  maxMemoryUsage : Nat
  memoryUsage : Nat
  nextChangeNumber : Nat
  fullUndoImposible : Bool
deriving DecidableEq

/-- A fresh, empty undo list configured with the two caps. -/
def UndoList.mkEmpty (maxA maxM : Nat) : UndoList :=
  { items := [], maxUndoActions := maxA, maxMemoryUsage := maxM
    memoryUsage := 0, nextChangeNumber := 1, fullUndoImposible := false }

/-- Modelled from the spec: the eviction loop of
`UndoList::ensureMaxEntries` — while the entry count exceeds the
entry-count cap or the tracked memory usage exceeds the memory cap,
drop the oldest entry, subtract its usage, and record that a full undo
has become impossible. -/
def evictOldest (maxA maxM : Nat) :
    List UndoItem → Nat → Bool → List UndoItem × Nat × Bool
  | [], mem, flag => ([], mem, flag)
  | it :: rest, mem, flag =>
    if maxA < (it :: rest).length ∨ maxM < mem then
      evictOldest maxA maxM rest (mem - it.memoryUsage) true
    else (it :: rest, mem, flag)

/-- `UndoList::ensureMaxEntries`, applied to the whole state. -/
def UndoList.ensureMaxEntries (u : UndoList) : UndoList :=
  let r := evictOldest u.maxUndoActions u.maxMemoryUsage u.items u.memoryUsage
      u.fullUndoImposible
  { u with items := r.1, memoryUsage := r.2.1, fullUndoImposible := r.2.2 }

/-- Modelled from the spec: `UndoList::addChange` — appends an entry
carrying the next sequence number, adds its memory usage
(`addMemoryUsage`), bumps the sequence counter and re-establishes the
caps. -/
def UndoList.addChange (u : UndoList) (reason : ChangeReason)
    (startPos endPos : BufferCoord) (text : List (List Char))
    (selMode : SelectionMode) : UndoList :=
  let item : UndoItem :=
    { changeReason := reason, changeSelMode := selMode
      changeStartPos := startPos, changeEndPos := endPos
      changeText := text, changeNumber := u.nextChangeNumber }
  UndoList.ensureMaxEntries
    { u with items := u.items ++ [item]
             memoryUsage := u.memoryUsage + item.memoryUsage
             nextChangeNumber := u.nextChangeNumber + 1 }

/-- Modelled from the spec: `UndoList::restoreChange` — re-appends an
item that keeps its original sequence number, accounts its memory
usage, and advances the sequence counter past it. -/
def UndoList.restoreChange (u : UndoList) (item : UndoItem) : UndoList :=
  UndoList.ensureMaxEntries
    { u with items := u.items ++ [item]
             memoryUsage := u.memoryUsage + item.memoryUsage
             nextChangeNumber := max u.nextChangeNumber (item.changeNumber + 1) }

/-- Modelled from the spec: `UndoList::popItem` — removes the newest
entry and subtracts its memory usage (`reduceMemoryUsage`). -/
def UndoList.popItem (u : UndoList) : UndoList :=
  match u.items.getLast? with
  | none => u
  | some it =>
    { u with items := u.items.dropLast
             memoryUsage := u.memoryUsage - it.memoryUsage }

/-- Modelled from the spec: `UndoList::clear` — empties the log and
resets the memory usage and the full-undo-impossible flag. -/
def UndoList.clearAll (u : UndoList) : UndoList :=
  { u with items := [], memoryUsage := 0, fullUndoImposible := false }

/-- `UndoList::setMaxUndoActions` re-establishes the cap at once. -/
def UndoList.setMaxUndoActions (u : UndoList) (n : Nat) : UndoList :=
  UndoList.ensureMaxEntries { u with maxUndoActions := n }

/-- `UndoList::setMaxMemoryUsage` re-establishes the cap at once. -/
def UndoList.setMaxMemoryUsage (u : UndoList) (n : Nat) : UndoList :=
  UndoList.ensureMaxEntries { u with maxMemoryUsage := n }

/-- The operations of one undo-list session. -/
inductive UndoOp where
  | add : ChangeReason → BufferCoord → BufferCoord → List (List Char) →
      SelectionMode → UndoOp
  | restore : UndoItem → UndoOp
  | pop : UndoOp
  | clearAll : UndoOp
  | setMaxActions : Nat → UndoOp
  | setMaxMemory : Nat → UndoOp
deriving DecidableEq

def applyOp (u : UndoList) : UndoOp → UndoList
  | UndoOp.add reason s e t m => u.addChange reason s e t m
  | UndoOp.restore item => u.restoreChange item
  | UndoOp.pop => u.popItem
  | UndoOp.clearAll => u.clearAll
  | UndoOp.setMaxActions n => u.setMaxUndoActions n
  | UndoOp.setMaxMemory n => u.setMaxMemoryUsage n

def applyOps (u : UndoList) : List UndoOp → UndoList
  | [] => u
  | op :: ops => applyOps (applyOp u op) ops

/-- The sequence numbers handed out by `addChange`, in call order, over
a session's operation list. -/
def assignedNumbers (u : UndoList) : List UndoOp → List Nat
  | [] => []
  | op :: ops =>
    match op with
    | UndoOp.add _ _ _ _ _ =>
      u.nextChangeNumber :: assignedNumbers (applyOp u op) ops
    | _ => assignedNumbers (applyOp u op) ops

/-- The argument bundle of one `addChange` call. -/
structure AddSpec where
  reason : ChangeReason
  startPos : BufferCoord
  endPos : BufferCoord
  text : List (List Char)
  selMode : SelectionMode
deriving DecidableEq

def applyAdds (u : UndoList) : List AddSpec → UndoList
  | [] => u
  | a :: rest => applyAdds (u.addChange a.reason a.startPos a.endPos a.text a.selMode) rest

/-- Embedding of the `RedoList` state (document.h): just the items —
its interface exposes no cap. -/
structure RedoList where
  items : List UndoItem
deriving DecidableEq

/-- Modelled from the spec: `RedoList::addRedo` appends the item,
unconditionally. -/
def RedoList.addRedo (r : RedoList) (item : UndoItem) : RedoList :=
  ⟨r.items ++ [item]⟩

/-- Modelled from the spec: `RedoList::popItem` removes the newest
item. -/
def RedoList.popItem (r : RedoList) : RedoList := ⟨r.items.dropLast⟩

/-- Modelled from the spec: `RedoList::clear` empties the list. -/
def RedoList.clearAll (_ : RedoList) : RedoList := ⟨[]⟩

def addRedos (r : RedoList) : List UndoItem → RedoList
  | [] => r
  | it :: rest => addRedos (r.addRedo it) rest

/-! ## Helper lemmas -/

theorem addRedos_items : ∀ (its : List UndoItem) (r : RedoList),
    (addRedos r its).items = r.items ++ its
  | [], r => by simp [addRedos]
  | it :: rest, r => by
    simp [addRedos, RedoList.addRedo, addRedos_items rest]

theorem ensureMaxEntries_next (u : UndoList) :
    u.ensureMaxEntries.nextChangeNumber = u.nextChangeNumber := rfl

theorem assignedNumbers_add (u : UndoList) (ops : List UndoOp)
    (reason : ChangeReason) (s e : BufferCoord) (t : List (List Char))
    (m : SelectionMode) :
    assignedNumbers u (UndoOp.add reason s e t m :: ops) =
      u.nextChangeNumber ::
        assignedNumbers (applyOp u (UndoOp.add reason s e t m)) ops := rfl

theorem assignedNumbers_restore (u : UndoList) (ops : List UndoOp)
    (item : UndoItem) :
    assignedNumbers u (UndoOp.restore item :: ops) =
      assignedNumbers (applyOp u (UndoOp.restore item)) ops := rfl

theorem assignedNumbers_pop (u : UndoList) (ops : List UndoOp) :
    assignedNumbers u (UndoOp.pop :: ops) =
      assignedNumbers (applyOp u UndoOp.pop) ops := rfl

theorem assignedNumbers_clearAll (u : UndoList) (ops : List UndoOp) :
    assignedNumbers u (UndoOp.clearAll :: ops) =
      assignedNumbers (applyOp u UndoOp.clearAll) ops := rfl

theorem assignedNumbers_setMaxActions (u : UndoList) (ops : List UndoOp) (n : Nat) :
    assignedNumbers u (UndoOp.setMaxActions n :: ops) =
      assignedNumbers (applyOp u (UndoOp.setMaxActions n)) ops := rfl

theorem assignedNumbers_setMaxMemory (u : UndoList) (ops : List UndoOp) (n : Nat) :
    assignedNumbers u (UndoOp.setMaxMemory n :: ops) =
      assignedNumbers (applyOp u (UndoOp.setMaxMemory n)) ops := rfl

theorem applyOp_next_mono (u : UndoList) (op : UndoOp) :
    u.nextChangeNumber ≤ (applyOp u op).nextChangeNumber := by
  cases op with
  | add reason s e t m =>
    simp [applyOp, UndoList.addChange, ensureMaxEntries_next]
  | restore item =>
    simp only [applyOp, UndoList.restoreChange, ensureMaxEntries_next]
    exact Nat.le_max_left _ _
  | pop =>
    simp only [applyOp, UndoList.popItem]
    cases u.items.getLast? <;> simp
  | clearAll => simp [applyOp, UndoList.clearAll]
  | setMaxActions n => simp [applyOp, UndoList.setMaxUndoActions, ensureMaxEntries_next]
  | setMaxMemory n => simp [applyOp, UndoList.setMaxMemoryUsage, ensureMaxEntries_next]

theorem applyOp_add_next (u : UndoList) (reason : ChangeReason)
    (s e : BufferCoord) (t : List (List Char)) (m : SelectionMode) :
    (applyOp u (UndoOp.add reason s e t m)).nextChangeNumber =
      u.nextChangeNumber + 1 := rfl

theorem assignedNumbers_ge : ∀ (ops : List UndoOp) (u : UndoList) (n : Nat),
    n ∈ assignedNumbers u ops → u.nextChangeNumber ≤ n
  | [], _, _, h => by simp [assignedNumbers] at h
  | op :: ops, u, n, h => by
    cases op with
    | add reason s e t m =>
      rw [assignedNumbers_add] at h
      rcases List.mem_cons.mp h with h1 | h2
      · exact Nat.le_of_eq h1.symm
      · exact Nat.le_trans (applyOp_next_mono u _) (assignedNumbers_ge ops _ n h2)
    | restore item =>
      exact Nat.le_trans (applyOp_next_mono u _)
        (assignedNumbers_ge ops _ n (by rw [assignedNumbers_restore] at h; exact h))
    | pop =>
      exact Nat.le_trans (applyOp_next_mono u _)
        (assignedNumbers_ge ops _ n (by rw [assignedNumbers_pop] at h; exact h))
    | clearAll =>
      exact Nat.le_trans (applyOp_next_mono u _)
        (assignedNumbers_ge ops _ n (by rw [assignedNumbers_clearAll] at h; exact h))
    | setMaxActions k =>
      exact Nat.le_trans (applyOp_next_mono u _)
        (assignedNumbers_ge ops _ n (by rw [assignedNumbers_setMaxActions] at h; exact h))
    | setMaxMemory k =>
      exact Nat.le_trans (applyOp_next_mono u _)
        (assignedNumbers_ge ops _ n (by rw [assignedNumbers_setMaxMemory] at h; exact h))

theorem evictOldest_sum (maxA maxM : Nat) :
    ∀ (items : List UndoItem) (mem : Nat) (flag : Bool),
      mem = (items.map UndoItem.memoryUsage).sum →
      (evictOldest maxA maxM items mem flag).2.1 =
        (((evictOldest maxA maxM items mem flag).1).map UndoItem.memoryUsage).sum
  | [], mem, flag, h => by simpa [evictOldest] using h
  | it :: rest, mem, flag, h => by
    rw [evictOldest]
    split
    · exact evictOldest_sum maxA maxM rest (mem - it.memoryUsage) true
        (by simp [h, List.map_cons, List.sum_cons])
    · simpa using h

theorem evictOldest_caps (maxA maxM : Nat) :
    ∀ (items : List UndoItem) (mem : Nat) (flag : Bool),
      mem = (items.map UndoItem.memoryUsage).sum →
      (evictOldest maxA maxM items mem flag).1.length ≤ maxA ∧
      (evictOldest maxA maxM items mem flag).2.1 ≤ maxM
  | [], mem, flag, h => by
    simp [evictOldest]
    simp at h
    omega
  | it :: rest, mem, flag, h => by
    rw [evictOldest]
    split
    · exact evictOldest_caps maxA maxM rest (mem - it.memoryUsage) true
        (by simp [h, List.map_cons, List.sum_cons])
    · rename_i hcond
      push_neg at hcond
      simpa using hcond

theorem evictOldest_flag_sticky (maxA maxM : Nat) :
    ∀ (items : List UndoItem) (mem : Nat) (flag : Bool),
      flag = true → (evictOldest maxA maxM items mem flag).2.2 = true
  | [], _, _, h => by simpa [evictOldest] using h
  | it :: rest, mem, flag, h => by
    rw [evictOldest]
    split
    · exact evictOldest_flag_sticky maxA maxM rest (mem - it.memoryUsage) true rfl
    · simpa using h

theorem getLast?_decomp {α : Type} : ∀ (l : List α) (a : α),
    l.getLast? = some a → l = l.dropLast ++ [a]
  | [], a, h => by simp at h
  | [x], a, h => by
    simp at h
    simp [h]
  | x :: y :: rest, a, h => by
    have h2 : (y :: rest).getLast? = some a := by
      simpa [List.getLast?_cons_cons] using h
    have := getLast?_decomp (y :: rest) a h2
    calc x :: y :: rest = x :: ((y :: rest).dropLast ++ [a]) := by rw [← this]
      _ = (x :: y :: rest).dropLast ++ [a] := by simp

theorem addChange_sum_accurate (u : UndoList) (reason : ChangeReason)
    (s e : BufferCoord) (t : List (List Char)) (m : SelectionMode)
    (h : u.memoryUsage = (u.items.map UndoItem.memoryUsage).sum) :
    (u.addChange reason s e t m).memoryUsage =
      (((u.addChange reason s e t m).items).map UndoItem.memoryUsage).sum := by
  unfold UndoList.addChange UndoList.ensureMaxEntries
  exact evictOldest_sum _ _ _ _ _ (by simp [h])

theorem applyOp_sum_accurate (u : UndoList) (op : UndoOp)
    (h : u.memoryUsage = (u.items.map UndoItem.memoryUsage).sum) :
    (applyOp u op).memoryUsage =
      (((applyOp u op).items).map UndoItem.memoryUsage).sum := by
  cases op with
  | add reason s e t m => exact addChange_sum_accurate u reason s e t m h
  | restore item =>
    unfold applyOp UndoList.restoreChange UndoList.ensureMaxEntries
    exact evictOldest_sum _ _ _ _ _ (by simp [h])
  | pop =>
    unfold applyOp UndoList.popItem
    cases hl : u.items.getLast? with
    | none => exact h
    | some it =>
      have hdecomp := getLast?_decomp u.items it hl
      simp only
      rw [h]
      conv_lhs => rw [hdecomp]
      simp
  | clearAll => simp [applyOp, UndoList.clearAll]
  | setMaxActions n =>
    unfold applyOp UndoList.setMaxUndoActions UndoList.ensureMaxEntries
    exact evictOldest_sum _ _ _ _ _ (by simpa using h)
  | setMaxMemory n =>
    unfold applyOp UndoList.setMaxMemoryUsage UndoList.ensureMaxEntries
    exact evictOldest_sum _ _ _ _ _ (by simpa using h)

theorem applyOps_sum_accurate : ∀ (ops : List UndoOp) (u : UndoList),
    u.memoryUsage = (u.items.map UndoItem.memoryUsage).sum →
    (applyOps u ops).memoryUsage =
      (((applyOps u ops).items).map UndoItem.memoryUsage).sum
  | [], _, h => h
  | op :: ops, u, h =>
    applyOps_sum_accurate ops (applyOp u op) (applyOp_sum_accurate u op h)

theorem addChange_maxA (u : UndoList) (reason : ChangeReason)
    (s e : BufferCoord) (t : List (List Char)) (m : SelectionMode) :
    (u.addChange reason s e t m).maxUndoActions = u.maxUndoActions := rfl

theorem addChange_maxM (u : UndoList) (reason : ChangeReason)
    (s e : BufferCoord) (t : List (List Char)) (m : SelectionMode) :
    (u.addChange reason s e t m).maxMemoryUsage = u.maxMemoryUsage := rfl

theorem applyAdds_maxA : ∀ (adds : List AddSpec) (u : UndoList),
    (applyAdds u adds).maxUndoActions = u.maxUndoActions
  | [], _ => rfl
  | a :: rest, u =>
    (applyAdds_maxA rest _).trans
      (addChange_maxA u a.reason a.startPos a.endPos a.text a.selMode)

theorem applyAdds_maxM : ∀ (adds : List AddSpec) (u : UndoList),
    (applyAdds u adds).maxMemoryUsage = u.maxMemoryUsage
  | [], _ => rfl
  | a :: rest, u =>
    (applyAdds_maxM rest _).trans
      (addChange_maxM u a.reason a.startPos a.endPos a.text a.selMode)

theorem addChange_caps (u : UndoList) (reason : ChangeReason)
    (s e : BufferCoord) (t : List (List Char)) (m : SelectionMode)
    (hacc : u.memoryUsage = (u.items.map UndoItem.memoryUsage).sum) :
    (u.addChange reason s e t m).items.length ≤ u.maxUndoActions ∧
    (u.addChange reason s e t m).memoryUsage ≤ u.maxMemoryUsage := by
  unfold UndoList.addChange UndoList.ensureMaxEntries
  exact evictOldest_caps _ _ _ _ _ (by simp [hacc])

theorem addChange_flag_sticky (u : UndoList) (reason : ChangeReason)
    (s e : BufferCoord) (t : List (List Char)) (m : SelectionMode)
    (h : u.fullUndoImposible = true) :
    (u.addChange reason s e t m).fullUndoImposible = true := by
  unfold UndoList.addChange UndoList.ensureMaxEntries
  exact evictOldest_flag_sticky _ _ _ _ _ h

theorem applyAdds_flag_sticky : ∀ (adds : List AddSpec) (u : UndoList),
    u.fullUndoImposible = true → (applyAdds u adds).fullUndoImposible = true
  | [], _, h => h
  | a :: rest, u, h =>
    applyAdds_flag_sticky rest _
      (addChange_flag_sticky u a.reason a.startPos a.endPos a.text a.selMode h)

theorem applyAdds_sum_accurate : ∀ (adds : List AddSpec) (u : UndoList),
    u.memoryUsage = (u.items.map UndoItem.memoryUsage).sum →
    (applyAdds u adds).memoryUsage =
      (((applyAdds u adds).items).map UndoItem.memoryUsage).sum
  | [], _, h => h
  | a :: rest, u, h =>
    applyAdds_sum_accurate rest _
      (addChange_sum_accurate u a.reason a.startPos a.endPos a.text a.selMode h)

theorem applyAdds_caps : ∀ (adds : List AddSpec) (u : UndoList),
    u.memoryUsage = (u.items.map UndoItem.memoryUsage).sum →
    u.items.length ≤ u.maxUndoActions →
    u.memoryUsage ≤ u.maxMemoryUsage →
    (applyAdds u adds).items.length ≤ u.maxUndoActions ∧
    (applyAdds u adds).memoryUsage ≤ u.maxMemoryUsage
  | [], _, _, h1, h2 => ⟨h1, h2⟩
  | a :: rest, u, hacc, _, _ => by
    have hacc' :=
      addChange_sum_accurate u a.reason a.startPos a.endPos a.text a.selMode hacc
    have hcaps := addChange_caps u a.reason a.startPos a.endPos a.text a.selMode hacc
    have hrec := applyAdds_caps rest
      (u.addChange a.reason a.startPos a.endPos a.text a.selMode) hacc'
      (by rw [addChange_maxA]; exact hcaps.1)
      (by rw [addChange_maxM]; exact hcaps.2)
    rw [applyAdds]
    rw [addChange_maxA, addChange_maxM] at hrec
    exact hrec

theorem drop_set_succ {α : Type} : ∀ (xs : List α) (i : Nat) (x : α),
    (xs.set i x).drop (i+1) = xs.drop (i+1)
  | [], _, _ => rfl
  | _ :: _, 0, _ => rfl
  | c :: cs, i+1, x => by
    show (c :: cs.set i x).drop (i+2) = (c :: cs).drop (i+2)
    simp only [List.drop_succ_cons]
    exact drop_set_succ cs i x

theorem take_set_succ {α : Type} : ∀ (xs : List α) (i : Nat) (x : α),
    i < xs.length → (xs.set i x).take (i+1) = xs.take i ++ [x]
  | [], i, x, h => by simp at h
  | c :: cs, 0, x, _ => by simp
  | c :: cs, i+1, x, h => by
    show (c :: cs.set i x).take (i+2) = (c :: cs).take (i+1) ++ [x]
    simp only [List.take_succ_cons, List.cons_append]
    rw [take_set_succ cs i x (by simpa using h)]

theorem getD_set_self {α : Type} : ∀ (xs : List α) (i : Nat) (x d : α),
    i < xs.length → (xs.set i x).getD i d = x
  | [], i, x, d, h => by simp at h
  | c :: cs, 0, x, d, _ => rfl
  | c :: cs, i+1, x, d, h => by
    show (c :: cs.set i x).getD (i+1) d = x
    simp only [List.getD_cons_succ]
    exact getD_set_self cs i x d (by simpa using h)

theorem drop_eq_getD_cons {α : Type} : ∀ (xs : List α) (n : Nat) (d : α),
    n < xs.length → xs.drop n = xs.getD n d :: xs.drop (n+1)
  | [], n, d, h => by simp at h
  | c :: cs, 0, d, _ => rfl
  | c :: cs, n+1, d, h => by
    show (c :: cs).drop (n+1) = (c :: cs).getD (n+1) d :: (c :: cs).drop (n+2)
    simp only [List.drop_succ_cons, List.getD_cons_succ]
    exact drop_eq_getD_cons cs n d (by simpa using h)

theorem map_snd_zip_eq {α β : Type} : ∀ (as : List α) (bs : List β),
    bs.length ≤ as.length → (as.zip bs).map Prod.snd = bs
  | _, [], _ => by simp
  | [], _ :: _, h => by simp at h
  | a :: as, b :: bs, h => by
    simp only [List.zip_cons_cons, List.map_cons]
    rw [map_snd_zip_eq as bs (by simpa using h)]

theorem take_getD_drop {α : Type} (xs : List α) (n : Nat) (d : α)
    (h : n < xs.length) :
    xs.take n ++ xs.getD n d :: xs.drop (n+1) = xs := by
  conv_rhs => rw [← List.take_append_drop n xs]
  rw [drop_eq_getD_cons xs n d h]

theorem joinLines_cons (nl : NewlineType) (x : List Char) :
    ∀ (ls : List (List Char)), ls ≠ [] →
      joinLines nl (x :: ls) = x ++ newlineChars nl ++ joinLines nl ls
  | [], h => absurd rfl h
  | _ :: _, _ => rfl

theorem splitLines_ne_nil : ∀ (text : List Char), splitLines text ≠ [] := by
  intro text
  induction text using splitLines.induct <;> simp_all [splitLines]

theorem join_split (nl : NewlineType) : ∀ (text : List Char),
    uniformBreaks nl text = true → joinLines nl (splitLines text) = text := by
  intro text
  induction text using splitLines.induct with
  | case1 => intro _; rfl
  | case2 tail ih =>
    intro h
    cases nl with
    | crlf =>
      have h' : uniformBreaks NewlineType.crlf tail = true := h
      have hs : splitLines ('\r' :: '\n' :: tail) = [] :: splitLines tail := rfl
      rw [hs, joinLines_cons _ _ _ (splitLines_ne_nil tail), ih h']
      rfl
    | cr => exact Bool.noConfusion h
    | lf => exact Bool.noConfusion h
  | case3 tail hmiss ih =>
    intro h
    cases tail with
    | nil =>
      cases nl with
      | crlf => exact Bool.noConfusion h
      | lf => exact Bool.noConfusion h
      | cr => rfl
    | cons c ctail =>
      have hc : ¬ (c = '\n') := fun hcc => hmiss ctail (by rw [hcc])
      cases nl with
      | lf => exact Bool.noConfusion h
      | crlf =>
        have hfalse : uniformBreaks NewlineType.crlf ('\r'::c::ctail) = false := by
          simp [uniformBreaks, hc]
        rw [hfalse] at h
        exact Bool.noConfusion h
      | cr =>
        have h' : uniformBreaks NewlineType.cr (c::ctail) = true := h
        have hs : splitLines ('\r'::c::ctail) = [] :: splitLines (c::ctail) := by
          simp [splitLines, hc]
        rw [hs, joinLines_cons _ _ _ (splitLines_ne_nil _), ih h']
        rfl
  | case4 tail ih =>
    intro h
    cases nl with
    | crlf => exact Bool.noConfusion h
    | cr => exact Bool.noConfusion h
    | lf =>
      have h' : uniformBreaks NewlineType.lf tail = true := h
      have hs : splitLines ('\n'::tail) = [] :: splitLines tail := rfl
      rw [hs, joinLines_cons _ _ _ (splitLines_ne_nil tail), ih h']
      rfl
  | case5 head rest hm1 hm2 hm3 hsplit ih =>
    exact absurd hsplit (splitLines_ne_nil rest)
  | case6 head rest hm1 hm2 hm3 l ls hsplit ih =>
    intro h
    have hr : ¬ (head = '\r') := hm2
    have hn : ¬ (head = '\n') := hm3
    have h' : uniformBreaks nl rest = true := by
      cases nl <;> simp_all [uniformBreaks]
    have hs : splitLines (head::rest) = (head :: l) :: ls := by
      simp [splitLines, hr, hn, hsplit]
    rw [hs]
    have hj : joinLines nl ((head :: l) :: ls) = head :: joinLines nl (l :: ls) := by
      cases ls with
      | nil => rfl
      | cons a as => simp [joinLines]
    rw [hj, ← hsplit, ih h']

theorem getLast?_cons_of_ne {α : Type} (x : α) (ls : List α) (h : ls ≠ []) :
    (x :: ls).getLast? = ls.getLast? := by
  cases ls with
  | nil => exact absurd rfl h
  | cons a as => rw [List.getLast?_cons_cons]

theorem endsWithBreak_cons (c : Char) (rest : List Char) (h : rest ≠ []) :
    endsWithBreak (c :: rest) = endsWithBreak rest := by
  unfold endsWithBreak
  rw [getLast?_cons_of_ne c rest h]

theorem splitLines_trailing : ∀ (text : List Char), endsWithBreak text = true →
    (splitLines text).getLast? = some [] ∧ 2 ≤ (splitLines text).length := by
  intro text
  induction text using splitLines.induct with
  | case1 => intro h; exact Bool.noConfusion h
  | case2 tail ih =>
    intro h
    cases tail with
    | nil => exact ⟨rfl, by decide⟩
    | cons c cs =>
      have h2 : endsWithBreak (c :: cs) = true := by
        rw [← endsWithBreak_cons '\n' (c :: cs) (by simp),
          ← endsWithBreak_cons '\r' ('\n' :: c :: cs) (by simp)]
        exact h
      obtain ⟨hlast, hlen⟩ := ih h2
      have hs : splitLines ('\r' :: '\n' :: c :: cs) = [] :: splitLines (c::cs) := rfl
      rw [hs]
      constructor
      · rw [getLast?_cons_of_ne _ _ (splitLines_ne_nil _)]
        exact hlast
      · simp only [List.length_cons]
        omega
  | case3 tail hmiss ih =>
    intro h
    cases tail with
    | nil => exact ⟨rfl, by decide⟩
    | cons c cs =>
      have hc : ¬ (c = '\n') := fun hcc => hmiss cs (by rw [hcc])
      have h2 : endsWithBreak (c :: cs) = true := by
        rw [← endsWithBreak_cons '\r' (c :: cs) (by simp)]
        exact h
      obtain ⟨hlast, hlen⟩ := ih h2
      have hs : splitLines ('\r'::c::cs) = [] :: splitLines (c::cs) := by
        simp [splitLines, hc]
      rw [hs]
      constructor
      · rw [getLast?_cons_of_ne _ _ (splitLines_ne_nil _)]
        exact hlast
      · simp only [List.length_cons]
        omega
  | case4 tail ih =>
    intro h
    cases tail with
    | nil => exact ⟨rfl, by decide⟩
    | cons c cs =>
      have h2 : endsWithBreak (c :: cs) = true := by
        rw [← endsWithBreak_cons '\n' (c :: cs) (by simp)]
        exact h
      obtain ⟨hlast, hlen⟩ := ih h2
      have hs : splitLines ('\n'::c::cs) = [] :: splitLines (c::cs) := rfl
      rw [hs]
      constructor
      · rw [getLast?_cons_of_ne _ _ (splitLines_ne_nil _)]
        exact hlast
      · simp only [List.length_cons]
        omega
  | case5 head rest hm1 hm2 hm3 hsplit ih =>
    exact absurd hsplit (splitLines_ne_nil rest)
  | case6 head rest hm1 hm2 hm3 l ls hsplit ih =>
    intro h
    have hr : ¬ (head = '\r') := hm2
    have hn : ¬ (head = '\n') := hm3
    cases rest with
    | nil =>
      have hfalse : endsWithBreak [head] = false := by
        unfold endsWithBreak
        simp [isBreakChar, hr, hn]
      rw [hfalse] at h
      exact Bool.noConfusion h
    | cons r rs =>
      have h2 : endsWithBreak (r :: rs) = true := by
        rw [← endsWithBreak_cons head (r :: rs) (by simp)]
        exact h
      obtain ⟨hlast, hlen⟩ := ih h2
      have hs : splitLines (head::r::rs) = (head :: l) :: ls := by
        simp [splitLines, hr, hn, hsplit]
      rw [hs]
      rw [hsplit] at hlast hlen
      have hls : ls ≠ [] := by
        cases ls with
        | nil => simp at hlen
        | cons a as => simp
      constructor
      · rw [getLast?_cons_of_ne _ _ hls]
        rw [getLast?_cons_of_ne _ _ hls] at hlast
        exact hlast
      · simp only [List.length_cons] at hlen ⊢
        omega

theorem joinLines_dropLast (nl : NewlineType) : ∀ (ls : List (List Char)),
    2 ≤ ls.length → ls.getLast? = some [] →
    joinLines nl ls = joinLines nl ls.dropLast ++ newlineChars nl
  | [], h, _ => by simp at h
  | [_], h, _ => by simp at h
  | [a, b], _, hlast => by
    have hb : b = [] := by simpa using hlast
    subst hb
    show a ++ newlineChars nl ++ joinLines nl [[]] = joinLines nl [a] ++ newlineChars nl
    simp [joinLines]
  | a :: b :: c :: cs, _, hlast => by
    have ih := joinLines_dropLast nl (b :: c :: cs) (by simp)
      (by simpa using hlast)
    show a ++ newlineChars nl ++ joinLines nl (b :: c :: cs) =
      joinLines nl ((a :: b :: c :: cs).dropLast) ++ newlineChars nl
    rw [ih]
    have hd : (a :: b :: c :: cs).dropLast = a :: (b :: c :: cs).dropLast := rfl
    rw [hd, joinLines_cons nl a _ (by simp)]
    simp [List.append_assoc]

/-! ## Claim theorems -/

/-- C1: the fixed-point re-highlight pass starting at line `l` primes
the tokenizer with the cached end-state of line `l-1` (the reset state
when `l` is the first line, per painter.cpp's priming), runs it over
line `l`'s text, stops as soon as the new end-state equals the cached
end-state of line `l` (leaving all cached states unchanged), and
otherwise stores the new state and continues with line `l+1`; on the
spec's example, inserting an unterminated `/*` at the start of the
second line makes the pass flip the second and third lines' states to
inside-block-comment and visit the third line (indices 1 and 2) even
though its text is untouched. -/
theorem rehighlight_fixed_point_semantics :
    (∀ (σ : Type) [DecidableEq σ] (scan : σ → List Char → σ) (resetSt : σ)
       (lines : List (List Char)) (cached : List σ) (l : Nat),
       cached.length = lines.length → l < lines.length →
       (scan (primeState resetSt cached l) (lines.getD l []) =
           cached.getD l resetSt →
         rehighlightFrom scan resetSt lines cached l = (cached, [l]))
     ∧ (scan (primeState resetSt cached l) (lines.getD l []) ≠
           cached.getD l resetSt →
         rehighlightFrom scan resetSt lines cached l =
           ((rehighlightFrom scan resetSt lines
               (cached.set l (scan (primeState resetSt cached l)
                 (lines.getD l []))) (l+1)).1,
            l :: (rehighlightFrom scan resetSt lines
               (cached.set l (scan (primeState resetSt cached l)
                 (lines.getD l []))) (l+1)).2)))
  ∧ rehighlightFrom miniScan CMode.plain
      ["int a = 1;".toList, "/*// comment".toList, "int b;".toList]
      [CMode.plain, CMode.plain, CMode.plain] 1
    = ([CMode.plain, CMode.inComment, CMode.inComment], [1, 2]) := by
  constructor
  · intro σ _ scan resetSt lines cached l hlen hl
    have hlc : l < cached.length := by rw [hlen]; exact hl
    have hzip : (lines.drop l).zip (cached.drop l) =
        (lines.getD l [], cached.getD l resetSt) ::
          (lines.drop (l+1)).zip (cached.drop (l+1)) := by
      rw [drop_eq_getD_cons lines l [] hl,
        drop_eq_getD_cons cached l resetSt hlc, List.zip_cons_cons]
    constructor
    · intro heq
      unfold rehighlightFrom
      rw [hzip, rehighlightLoop, if_pos heq]
      have hmap : ((lines.drop (l+1)).zip (cached.drop (l+1))).map Prod.snd =
          cached.drop (l+1) := by
        refine map_snd_zip_eq _ _ ?_
        simp [hlen]
      rw [hmap]
      show (List.take l cached ++
          (cached.getD l resetSt :: List.drop (l+1) cached), [l]) = (cached, [l])
      rw [take_getD_drop cached l resetSt hlc]
    · intro hne
      unfold rehighlightFrom
      rw [hzip, rehighlightLoop, if_neg hne]
      have hprime : primeState resetSt
          (cached.set l (scan (primeState resetSt cached l) (lines.getD l [])))
          (l+1) =
          scan (primeState resetSt cached l) (lines.getD l []) := by
        conv_lhs => rw [primeState]
        rw [if_neg (Nat.succ_ne_zero l), Nat.add_sub_cancel]
        exact getD_set_self cached l _ resetSt hlc
      have hdrop : (cached.set l (scan (primeState resetSt cached l)
          (lines.getD l []))).drop (l+1) = cached.drop (l+1) :=
        drop_set_succ cached l _
      have htake : (cached.set l (scan (primeState resetSt cached l)
          (lines.getD l []))).take (l+1) = cached.take l ++
            [scan (primeState resetSt cached l) (lines.getD l [])] :=
        take_set_succ cached l _ hlc
      rw [hprime, hdrop, htake]
      simp
  · decide

/-- Witness for C1: at a one-line document whose recomputed state
agrees with the cached state, the pass visits only that line and leaves
the cached states unchanged. -/
theorem rehighlight_fixed_point_witness :
    rehighlightFrom miniScan CMode.plain [['a']] [CMode.plain] 0 =
      ([CMode.plain], [0]) :=
  ((rehighlight_fixed_point_semantics.1 CMode miniScan CMode.plain [['a']]
    [CMode.plain] 0 rfl (by decide)).1 (by decide))

/-- C2: the painter token loop of `QSynEditPainter::paintLines`
(painter.cpp 1000-1013) swallows a zero-length token: when the syntaxer
reports an empty token while `eol()` is false, the loop hits `continue`
without calling `next()` (the throwing branch is commented out), so it
keeps looping on the same position forever — for every iteration budget
the loop fails to finish.  This contradicts the spec's requirement that
a non-advancing empty token be treated as a fatal precondition
violation instead of being swallowed. -/
theorem painterLoop_stalls_on_empty_token :
    ∀ (fuel : Nat) (rest acc : List (List Char)),
      paintTokenLoop fuel ⟨[] :: rest⟩ acc = none := by
  intro fuel
  induction fuel with
  | zero => intro rest acc; rfl
  | succ n ih =>
    intro rest acc
    simpa [paintTokenLoop, TokenScanner.eol, TokenScanner.getToken] using ih rest acc

/-- C8: every `addChange` call is assigned a sequence number strictly
greater than that of every entry added before it — over any session
operation list, the numbers handed out by successive `addChange` calls
are pairwise strictly increasing. -/
theorem addChange_numbers_strictly_increasing :
    ∀ (ops : List UndoOp) (u : UndoList),
      List.Pairwise (fun a b => a < b) (assignedNumbers u ops)
  | [], u => by simp [assignedNumbers]
  | op :: ops, u => by
    cases op with
    | add reason s e t m =>
      rw [assignedNumbers_add]
      refine List.pairwise_cons.mpr ⟨?_, addChange_numbers_strictly_increasing ops _⟩
      intro n hn
      have h1 := assignedNumbers_ge ops _ n hn
      rw [applyOp_add_next] at h1
      omega
    | restore item =>
      rw [assignedNumbers_restore]
      exact addChange_numbers_strictly_increasing ops _
    | pop =>
      rw [assignedNumbers_pop]
      exact addChange_numbers_strictly_increasing ops _
    | clearAll =>
      rw [assignedNumbers_clearAll]
      exact addChange_numbers_strictly_increasing ops _
    | setMaxActions n =>
      rw [assignedNumbers_setMaxActions]
      exact addChange_numbers_strictly_increasing ops _
    | setMaxMemory n =>
      rw [assignedNumbers_setMaxMemory]
      exact addChange_numbers_strictly_increasing ops _

/-- C9: the undo list's recorded cumulative memory usage always equals
the sum of `memoryUsage` over the items currently stored: every session
reachable from a fresh list by `addChange`, `restoreChange`, `popItem`,
eviction, `clear` and cap changes keeps the tracked total exact, so the
memory-cap check is evaluated against the true total. -/
theorem undoList_memory_usage_accurate :
    ∀ (maxA maxM : Nat) (ops : List UndoOp),
      (applyOps (UndoList.mkEmpty maxA maxM) ops).memoryUsage =
        (((applyOps (UndoList.mkEmpty maxA maxM) ops).items).map
          UndoItem.memoryUsage).sum := by
  intro maxA maxM ops
  exact applyOps_sum_accurate ops (UndoList.mkEmpty maxA maxM) rfl

/-- C3: the undo log never exceeds its entry-count or memory-usage cap
after any sequence of `addChange` calls on a freshly configured list
(insertion past a cap evicts the oldest entries first), the
full-undo-impossible flag once set stays set across further
`addChange` calls, and on the spec's example — cap of 2 entries, three
`Insert` changes — exactly the two newest entries (sequence numbers 2
and 3) remain and `fullUndoImposible()` is true. -/
theorem undoList_caps_eviction_sticky :
    (∀ (maxA maxM : Nat) (adds : List AddSpec),
        (applyAdds (UndoList.mkEmpty maxA maxM) adds).items.length ≤ maxA
      ∧ (applyAdds (UndoList.mkEmpty maxA maxM) adds).memoryUsage ≤ maxM)
  ∧ (∀ (u : UndoList) (adds : List AddSpec),
        u.fullUndoImposible = true →
        (applyAdds u adds).fullUndoImposible = true)
  ∧ ((applyAdds (UndoList.mkEmpty 2 1000000)
        [⟨ChangeReason.insert, ⟨1, 1⟩, ⟨2, 1⟩, [['a']], SelectionMode.normal⟩,
         ⟨ChangeReason.insert, ⟨1, 2⟩, ⟨2, 2⟩, [['b']], SelectionMode.normal⟩,
         ⟨ChangeReason.insert, ⟨1, 3⟩, ⟨2, 3⟩, [['c']],
           SelectionMode.normal⟩]).items.length = 2
    ∧ (applyAdds (UndoList.mkEmpty 2 1000000)
        [⟨ChangeReason.insert, ⟨1, 1⟩, ⟨2, 1⟩, [['a']], SelectionMode.normal⟩,
         ⟨ChangeReason.insert, ⟨1, 2⟩, ⟨2, 2⟩, [['b']], SelectionMode.normal⟩,
         ⟨ChangeReason.insert, ⟨1, 3⟩, ⟨2, 3⟩, [['c']],
           SelectionMode.normal⟩]).items.map UndoItem.changeNumber = [2, 3]
    ∧ (applyAdds (UndoList.mkEmpty 2 1000000)
        [⟨ChangeReason.insert, ⟨1, 1⟩, ⟨2, 1⟩, [['a']], SelectionMode.normal⟩,
         ⟨ChangeReason.insert, ⟨1, 2⟩, ⟨2, 2⟩, [['b']], SelectionMode.normal⟩,
         ⟨ChangeReason.insert, ⟨1, 3⟩, ⟨2, 3⟩, [['c']],
           SelectionMode.normal⟩]).fullUndoImposible = true) := by
  refine ⟨?_, ?_, by decide, by decide, by decide⟩
  · intro maxA maxM adds
    have h := applyAdds_caps adds (UndoList.mkEmpty maxA maxM) rfl
      (Nat.zero_le _) (Nat.zero_le _)
    exact h
  · intro u adds h
    exact applyAdds_flag_sticky adds u h

/-- Witness for C3: a list whose full-undo-impossible flag is already
set keeps it set across a further `addChange`. -/
theorem undoList_caps_eviction_sticky_witness :
    (applyAdds { UndoList.mkEmpty 2 100 with fullUndoImposible := true }
      [⟨ChangeReason.insert, ⟨1, 1⟩, ⟨2, 1⟩, [['a']],
        SelectionMode.normal⟩]).fullUndoImposible = true :=
  undoList_caps_eviction_sticky.2.1
    { UndoList.mkEmpty 2 100 with fullUndoImposible := true }
    [⟨ChangeReason.insert, ⟨1, 1⟩, ⟨2, 1⟩, [['a']], SelectionMode.normal⟩] rfl

/-- C4 counterexample: a text with genuinely mixed line endings
(`"a\r\nb\n"`) does not round-trip — the document records the single
detected newline type (CRLF here) and save rewrites every line break
with it, so the LF break comes back as CRLF. -/
theorem load_save_mixed_endings_counterexample :
    saveText (loadText ('a' :: '\r' :: '\n' :: 'b' :: '\n' :: [])) ≠
      ('a' :: '\r' :: '\n' :: 'b' :: '\n' :: []) := by
  decide

/-- C4 (amended): load followed by save with the detected newline type
reproduces the original bytes exactly whenever the text's line breaks
all use one single style (the detected one); the load sets the
append-trailing-newline flag to whether the source ended with a line
break, so the flag proviso holds by construction.  With mixed
CR/LF/CRLF endings the claim fails (see the counterexample): save
normalizes every break to the one detected style. -/
theorem load_save_round_trip :
    ∀ (text : List Char),
      (loadText text).appendNewLineAtEOF = endsWithBreak text
    ∧ (uniformBreaks (detectNewlineType text) text = true →
        saveText (loadText text) = text) := by
  intro text
  refine ⟨rfl, ?_⟩
  intro h
  unfold saveText loadText
  cases hflag : endsWithBreak text with
  | false =>
    simp only [hflag, Bool.false_eq_true, if_false, List.append_nil]
    exact join_split _ text h
  | true =>
    simp only [hflag, if_true]
    obtain ⟨hlast, hlen⟩ := splitLines_trailing text hflag
    rw [← joinLines_dropLast _ _ hlen hlast]
    exact join_split _ text h

/-- Witness for C4: a two-line CRLF text with a trailing break
round-trips exactly. -/
theorem load_save_round_trip_witness :
    saveText (loadText "ab\r\ncd\r\n".toList) = "ab\r\ncd\r\n".toList :=
  (load_save_round_trip "ab\r\ncd\r\n".toList).2 (by decide)

/-- C5: whenever `loadFromFile` fails — unreadable file, a missing or
wrong byte-order marker, or a malformed multi-byte sequence — it
returns a typed file error distinguishing the failure mode and the
in-memory document is exactly what it was before the call; only a
fully successful decode replaces the contents. -/
theorem loadFromFile_error_leaves_document_unchanged :
    ∀ (doc : TextDoc) (readable : Bool) (enc : Encoding) (bytes : List Nat),
      (∀ e, (loadFromFile doc readable enc bytes).2 = some e →
        (loadFromFile doc readable enc bytes).1 = doc)
    ∧ (readable = false →
        (loadFromFile doc readable enc bytes).2 = some FileErrorKind.unreadable)
    ∧ (∀ e, readable = true → decodeBytes enc bytes = Except.error e →
        (loadFromFile doc readable enc bytes).2 = some e) := by
  intro doc readable enc bytes
  refine ⟨?_, ?_, ?_⟩
  · intro e
    unfold loadFromFile
    cases readable with
    | false => intro _; rfl
    | true =>
      cases h : decodeBytes enc bytes with
      | error e2 => intro _; simp [h]
      | ok text => simp [h]
  · intro h
    subst h
    rfl
  · intro e h1 h2
    subst h1
    unfold loadFromFile
    simp [h2]

/-- Witness for C5: an undecodable byte under the ASCII decoder leaves
a concrete loaded document untouched. -/
theorem loadFromFile_error_witness :
    (loadFromFile (loadText ['x']) true Encoding.ascii [200]).1 =
      loadText ['x'] :=
  (loadFromFile_error_leaves_document_unchanged (loadText ['x']) true
    Encoding.ascii [200]).1 FileErrorKind.malformedSequence (by decide)

/-- C6: `lineColumns(line, newText)` returns the pre-calculated cached
width when `newText` equals the stored line text and the freshly
computed width of `newText` otherwise, and in both cases leaves every
line's cached columns (indeed the whole document) unchanged; only the
one-argument `lineColumns(line)` stores the computed width into the
cache. -/
theorem lineColumns_cache_semantics :
    ∀ (doc : ColDoc) (i : Nat) (t : List Char),
      (doc.lineColumnsText i t).2 = doc
    ∧ (∀ ln w, doc.lines.get? i = some ln → ln.cachedColumns = some w →
        t = ln.text → (doc.lineColumnsText i t).1 = w)
    ∧ (∀ ln, doc.lines.get? i = some ln → t ≠ ln.text →
        (doc.lineColumnsText i t).1 = stringColumns doc.tabWidth t 0)
    ∧ (∀ ln, doc.lines.get? i = some ln → ln.cachedColumns = none →
        (doc.lineColumns i).1 = stringColumns doc.tabWidth ln.text 0
      ∧ (doc.lineColumns i).2.lines =
          doc.lines.set i { ln with cachedColumns := some (stringColumns doc.tabWidth ln.text 0) }) := by
  intro doc i t
  refine ⟨?_, ?_, ?_, ?_⟩
  · unfold ColDoc.lineColumnsText
    cases h : doc.lines.get? i with
    | none => rfl
    | some ln =>
      by_cases ht : t = ln.text <;> simp [ht]
  · intro ln w h hc ht
    rw [List.get?_eq_getElem?] at h
    unfold ColDoc.lineColumnsText
    simp [h, ht, hc]
  · intro ln h ht
    rw [List.get?_eq_getElem?] at h
    unfold ColDoc.lineColumnsText
    simp [h, ht]
  · intro ln h hc
    rw [List.get?_eq_getElem?] at h
    unfold ColDoc.lineColumns
    simp [h, hc]

/-- Witness for C6: on a concrete document, the two-argument query with
the stored text returns the cached width 2 (and, per the theorem's
frame part, leaves the document unchanged). -/
theorem lineColumns_cache_semantics_witness :
    ((⟨[⟨['a', 'b'], some 2⟩], 4⟩ : ColDoc).lineColumnsText 0 ['a', 'b']).1 = 2 :=
  (lineColumns_cache_semantics ⟨[⟨['a', 'b'], some 2⟩], 4⟩ 0 ['a', 'b']).2.1
    ⟨['a', 'b'], some 2⟩ 2 rfl rfl rfl

theorem clampToRange_idem (lo hi x : Int) :
    clampToRange lo hi (clampToRange lo hi x) = clampToRange lo hi x := by
  simp only [clampToRange, max_def, min_def]
  split_ifs <;> omega

theorem getD_mem_or_default : ∀ (l : List Nat) (n d : Nat),
    l.getD n d ∈ l ∨ l.getD n d = d
  | [], _, _ => Or.inr rfl
  | x :: _, 0, _ => Or.inl (List.mem_cons_self _ _)
  | _ :: rest, n+1, d => by
    rcases getD_mem_or_default rest n d with h | h
    · exact Or.inl (List.mem_cons_of_mem _ h)
    · exact Or.inr h

theorem charToGlyphIndex_clamp (ps : List Nat) (len : Nat) (x : Int) :
    charToGlyphIndex ps len x =
      charToGlyphIndex ps len (clampToRange 0 (Int.ofNat len) x) := by
  unfold charToGlyphIndex
  rw [clampToRange_idem]

theorem charToGlyphIndex_le (ps : List Nat) (len : Nat) (x : Int) :
    charToGlyphIndex ps len x ≤ ps.length := by
  simp only [charToGlyphIndex]
  split
  · exact Nat.le_refl _
  · exact Nat.le_trans (Nat.sub_le _ _) (List.countP_le_length _)

theorem columnToGlyphIndex_clamp (cols : List Nat) (total : Nat) (x : Int) :
    columnToGlyphIndex cols total x =
      columnToGlyphIndex cols total (clampToRange 0 (Int.ofNat total) x) := by
  unfold columnToGlyphIndex
  rw [clampToRange_idem]

theorem columnToGlyphIndex_le (cols : List Nat) (total : Nat) (x : Int) :
    columnToGlyphIndex cols total x ≤ cols.length := by
  simp only [columnToGlyphIndex]
  split
  · exact Nat.le_refl _
  · exact Nat.le_trans (Nat.sub_le _ _) (List.countP_le_length _)

/-- C7: the four conversion queries clamp an out-of-range argument to
the nearest valid boundary instead of failing — each conversion agrees
with itself at the clamped argument — and they never read outside the
cached arrays: the glyph-index results are bounded by the glyph count,
and the column/char answers are either entries of the cached arrays or
the documented boundary value (total width / line length). -/
theorem conversions_clamp_and_stay_in_bounds :
    ∀ (ps cols : List Nat) (len total : Nat) (x : Int),
      charToGlyphIndex ps len x =
        charToGlyphIndex ps len (clampToRange 0 (Int.ofNat len) x)
    ∧ charToGlyphIndex ps len x ≤ ps.length
    ∧ columnToGlyphIndex cols total x =
        columnToGlyphIndex cols total (clampToRange 0 (Int.ofNat total) x)
    ∧ columnToGlyphIndex cols total x ≤ cols.length
    ∧ charToColumn ps cols len total x =
        charToColumn ps cols len total (clampToRange 0 (Int.ofNat len) x)
    ∧ (charToColumn ps cols len total x ∈ cols ∨
        charToColumn ps cols len total x = total)
    ∧ columnToChar ps cols len total x =
        columnToChar ps cols len total (clampToRange 0 (Int.ofNat total) x)
    ∧ (columnToChar ps cols len total x ∈ ps ∨
        columnToChar ps cols len total x = len) := by
  intro ps cols len total x
  refine ⟨charToGlyphIndex_clamp ps len x, charToGlyphIndex_le ps len x,
    columnToGlyphIndex_clamp cols total x, columnToGlyphIndex_le cols total x,
    ?_, ?_, ?_, ?_⟩
  · unfold charToColumn
    rw [← charToGlyphIndex_clamp]
  · exact getD_mem_or_default cols _ total
  · unfold columnToChar
    rw [← columnToGlyphIndex_clamp]
  · exact getD_mem_or_default ps _ len

/-- C10: the redo list has no cap and never evicts: any number of
`addRedo` calls leaves every added item (and all previously stored
items) in the list, in order; only `popItem` (newest first) and `clear`
remove items. -/
theorem redoList_never_evicts :
    ∀ (r : RedoList) (its : List UndoItem),
      (addRedos r its).items = r.items ++ its
    ∧ (RedoList.popItem r).items = r.items.dropLast
    ∧ (RedoList.clearAll r).items = [] := by
  intro r its
  exact ⟨addRedos_items its r, rfl, rfl⟩

end RedPandaSpec
